import Mathlib

/-!
# Verification of the `fstools` DVDBND virtual filesystem

A shallow embedding of the core of the `fstools-rs` repository: the
`DvdBnd` virtual filesystem (`crates/dvdbnd/src/lib.rs`) — archive
loading (`create`), hash-indexed entry lookup and per-range decryption
(`open`), nested-container resolution (`read_file` /
`read_nested_bnd`) — and the bulk extraction pipeline
(`crates/cli/src/extract.rs`).

Bytes are modelled as `List Nat`, machine integers as `Nat`/`Int` with
explicit `% 2^w` where wrap-around matters.  File-system and I/O
effects are made explicit: `open` returns an effect trace, extraction
threads an explicit file-system state.  Collaborator components whose
sources live outside the verified core (the DCX compression envelope
reader, the BND4 nested-container parser, the AES block cipher, the
path-hashing `Name` and the bounded entry reader) are modelled from
the specification's contracts and passed in as explicit parameters.
-/

set_option autoImplicit false

namespace FsTools

/-- Errors of `DvdBnd` entry access, mirroring `enum DvdBndEntryError`. -/
inductive DvdBndEntryError where
  | CorruptEntry
  | NotFound
  | UnableToMap
  deriving Repr, DecidableEq

/-- A record of the table of contents of one BHD archive header.
Modelled from the spec: the Table-of-Contents Loader (`Bhd::read`, whose
source is outside the verified core) "yields a list of entry records
(content hash, sizes, offset, per-entry key, encrypted byte ranges)".
Field names follow their uses in `DvdBnd::create`. -/
structure BhdEntry where
  hash : Nat
  size : Nat
  padded_size : Nat
  offset : Nat
  aes_key : List Nat
  encrypted_ranges : List (Int × Int)
  deriving Repr, DecidableEq

/-- Modelled from the spec: a decrypted BHD header, exposing its table of
contents (`bhd.toc` in `DvdBnd::create`). -/
structure Bhd where
  toc : List BhdEntry
  deriving Repr, DecidableEq

/-- One entry of the `DvdBnd` entry table, mirroring `struct VfsFileEntry`.
`aes_ranges` are half-open `u64` ranges. -/
structure VfsFileEntry where
  archive : Nat
  file_size : Nat
  file_size_with_padding : Nat
  file_offset : Nat
  aes_key : List Nat
  aes_ranges : List (Nat × Nat)
  deriving Repr, DecidableEq

/-- The virtual filesystem, mirroring `struct DvdBnd`: the opened archive
data files and the entry table.  The `HashMap<Name, VfsFileEntry>` is
modelled as an association list where the most recent insertion for a key
shadows earlier ones. -/
structure DvdBnd where
  archives : List (List Nat)
  entries : List (Nat × VfsFileEntry)
  deriving Repr, DecidableEq

/-- Model of `HashMap::insert`: the new binding shadows any earlier one. -/
def hmInsert (m : List (Nat × VfsFileEntry)) (k : Nat) (v : VfsFileEntry) :
    List (Nat × VfsFileEntry) :=
  (k, v) :: m.filter (fun p => p.1 ≠ k)

/-- Model of `HashMap::extend`: insert each pair in iteration order. -/
def hmExtend (m : List (Nat × VfsFileEntry)) (new : List (Nat × VfsFileEntry)) :
    List (Nat × VfsFileEntry) :=
  new.foldl (fun acc p => hmInsert acc p.1 p.2) m

/-- Model of `HashMap::get`. -/
def hmLookup (m : List (Nat × VfsFileEntry)) (k : Nat) : Option VfsFileEntry :=
  (m.find? (fun p => p.1 = k)).map Prod.snd

/-- The `as u64` cast of a (possibly negative) integer. -/
def u64OfInt (i : Int) : Nat :=
  (i % (2 ^ 64)).toNat

/-- The conversion of one table-of-contents record into an entry-table
binding, mirroring the closure inside `DvdBnd::create`: the sentinel
`(-1, -1)` and degenerate `start == end` encrypted ranges are discarded,
remaining pairs are cast to `u64` ranges. -/
def convertEntry (index : Nat) (e : BhdEntry) : Nat × VfsFileEntry :=
  (e.hash,
   { archive := index
     file_size := e.size
     file_size_with_padding := e.padded_size
     file_offset := e.offset
     aes_key := e.aes_key
     aes_ranges := e.encrypted_ranges.filterMap (fun r =>
       if r.1 = -1 ∧ r.2 = -1 then none
       else if r.1 = r.2 then none
       else some (u64OfInt r.1, u64OfInt r.2)) })

/-- The loop of `DvdBnd::create`: `try_for_each` over the enumerated load
results of `DvdBnd::load_archive`, pushing the data file and extending the
entry table with the archive's converted table of contents.  The first
load failure aborts the whole construction. -/
def createGo : List (Except String (List Nat × Bhd)) → Nat → List (List Nat) →
    List (Nat × VfsFileEntry) → Except String DvdBnd
  | [], _, archives, entries => .ok ⟨archives, entries⟩
  | .error e :: _, _, _, _ => .error e
  | .ok (file, bhd) :: rest, index, archives, entries =>
      createGo rest (index + 1) (archives ++ [file])
        (hmExtend entries (bhd.toc.map (convertEntry index)))

/-- `DvdBnd::create`, abstracted over the outcome of `load_archive` for
each requested archive path (opening the header/data pair, obtaining the
key and decrypting the index are all I/O outside the embedding; each
outcome is a `Except String (data file bytes × decrypted header)`). -/
def create (loads : List (Except String (List Nat × Bhd))) : Except String DvdBnd :=
  createGo loads 0 [] []

/-- The bounded reader returned by `DvdBnd::open`.
Modelled from the spec: `DvdBndEntryReader` (its source is outside the
verified core) is "a bounded reader exposing exactly `effective_size`
bytes" over the read-only mapping: `data` is the mapped (decrypted)
region, `size` the bound. -/
structure DvdBndEntryReader where
  data : List Nat
  size : Nat
  deriving Repr, DecidableEq

/-- The bytes the bounded reader exposes (`read_to_end` of the reader). -/
def DvdBndEntryReader.exposed (r : DvdBndEntryReader) : List Nat :=
  r.data.take r.size

/-- One member record of a parsed BND4 nested container.
Modelled from the spec: the nested container reader yields an "ordered
{member_path, data_offset, size} list"; field names follow their uses in
`read_nested_bnd` and `extract`. -/
structure Bnd4File where
  path : String
  data_offset : Nat
  compressed_size : Nat
  deriving Repr, DecidableEq

/-- A parsed BND4 nested container (`BND4::from_reader`).
Modelled from the spec: the ordered member list, the member count, and
the raw container bytes handed to `BND4Reader::new`. -/
structure BND4 where
  files : List Bnd4File
  file_count : Nat
  data : List Nat
  deriving Repr, DecidableEq

/-- Modelled from the spec: `extract(member) -> owned bytes` reads a
member's bytes by "slicing the decompressed buffer at its stored
offset/size" (`Bnd4File::bytes` via `BND4Reader`). -/
def Bnd4File.memberBytes (f : Bnd4File) (data : List Nat) : List Nat :=
  (data.drop f.data_offset).take f.compressed_size

/-- The collaborator contracts consumed by the core, modelled from the
spec's "Consumed collaborator contracts" and Data Model sections:
* `aesDecrypt key blockRun`: AES-128-ECB block decryption with a 16-byte
  key (`Aes128::decrypt_blocks`), applied to a run of whole blocks;
* `dcxRead bytes`: the compression envelope reader
  `read(byte source) -> (descriptor, decompressing reader)`, returning
  the debug-formatted compression descriptor and the decompressed bytes;
* `bnd4Parse bytes`: the nested container reader
  `parse(bytes) -> ordered member list`;
* `nameOf path`: the `Name` path hash ("canonicalizes a virtual path and
  reduces it to a fixed-width content hash"). -/
structure Codecs where
  aesDecrypt : List Nat → List Nat → List Nat
  dcxRead : List Nat → Except String (String × List Nat)
  bnd4Parse : List Nat → Except String BND4
  nameOf : String → Nat

/-- An observable side effect of `DvdBnd::open`: establishing the
copy-on-write mapping of an archive region, or decrypting one run of
blocks in place (start byte, block count). -/
inductive Effect where
  | map (archive offset len : Nat)
  | decryptRange (start nblocks : Nat)
  deriving Repr, DecidableEq

/-- The per-range collection step of `DvdBnd::open`: for each declared
range, the block-run size is computed with wrapping `u64` subtraction
(`range.end - range.start`), then the bounds are checked against the
mapped length; a violation yields `CorruptEntry`.  The `collect` over a
Rust `Result` is `mapM`, short-circuiting at the first failure.  Each
collected run is `(start, size / block_size)`. -/
def collectBlocks (len : Nat) : List (Nat × Nat) →
    Except DvdBndEntryError (List (Nat × Nat))
  | [] => .ok []
  | r :: rest =>
      let size := (r.2 + 2 ^ 64 - r.1) % 2 ^ 64
      if r.1 ≥ len ∨ r.2 > len then .error .CorruptEntry
      else
        match collectBlocks len rest with
        | .error e => .error e
        | .ok bs => .ok ((r.1, size / 16) :: bs)

/-- Decrypt one run of `nblocks` 16-byte blocks of `data` in place,
starting at byte `start`. -/
def decryptAt (aes : List Nat → List Nat) (data : List Nat)
    (start nblocks : Nat) : List Nat :=
  data.take start ++ aes ((data.drop start).take (nblocks * 16)) ++
    data.drop (start + nblocks * 16)

/-- Decrypt every collected block run in place (the `for_each` over the
collected runs; the runs are disjoint, so the parallel iteration is
modelled sequentially). -/
def decryptAll (aes : List Nat → List Nat) (data : List Nat)
    (blocks : List (Nat × Nat)) : List Nat :=
  blocks.foldl (fun d b => decryptAt aes d b.1 b.2) data

/-- `DvdBnd::open`, instrumented with an effect trace: look the name's
hash up in the entry table (a miss is `NotFound`, before any mapping);
on a hit, map `file_size_with_padding` bytes at `file_offset` of the
owning archive, collect and bounds-check all encrypted ranges, decrypt
them only if every check passed, and return a reader bounded by
`file_size` when nonzero and `file_size_with_padding` otherwise. -/
def openE (c : Codecs) (vfs : DvdBnd) (n : Nat) :
    Except DvdBndEntryError DvdBndEntryReader × List Effect :=
  match hmLookup vfs.entries n with
  | none => (.error .NotFound, [])
  | some entry =>
      let offset := entry.file_offset
      let len := entry.file_size_with_padding
      let mapped := ((vfs.archives.getD entry.archive []).drop offset).take len
      let effs := [Effect.map entry.archive offset len]
      match collectBlocks len entry.aes_ranges with
      | .error e => (.error e, effs)
      | .ok blocks =>
          let dec := decryptAll (c.aesDecrypt entry.aes_key) mapped blocks
          let effective_file_size :=
            if entry.file_size ≠ 0 then entry.file_size
            else entry.file_size_with_padding
          (.ok ⟨dec, effective_file_size⟩,
           effs ++ blocks.map (fun b => .decryptRange b.1 b.2))

/-- Split a character list on a separator character. -/
def splitOnChar (sep : Char) : List Char → List (List Char)
  | [] => [[]]
  | c :: rest =>
      if c = sep then [] :: splitOnChar sep rest
      else
        match splitOnChar sep rest with
        | [] => [[c]]
        | g :: gs => (c :: g) :: gs

/-- The normal components of a path: split on the separator, dropping
empty and current-directory components. -/
def pathComponents (s : String) : List (List Char) :=
  (splitOnChar '/' s.toList).filter (fun comp => comp ≠ [] ∧ comp ≠ ['.'])

/-- Model of `Path::file_name`: the final normal component of the path,
`none` when there is none or when it is the parent-directory component
`..`. -/
def fileName (s : String) : Option String :=
  match (pathComponents s).getLast? with
  | none => none
  | some comp => if comp = ['.', '.'] then none else some (String.mk comp)

/-- An error of `DvdBnd::read_file` (boxed `dyn Error` in the source):
an entry-access error, a DCX/BND4 parse error, a missing nested member,
or a panic of the source (`unwrap` of a path with no file name). -/
inductive ReadErr where
  | entry (e : DvdBndEntryError)
  | codec (s : String)
  | memberNotFound (name : String)
  | panicked (s : String)
  deriving Repr, DecidableEq

/-- The member search inside `read_nested_bnd`:
`bnd.files.iter().find(|entry| Path::new(entry.path).file_name().unwrap() == nested_name)`.
The `unwrap` of a member path with no file name is a panic of the
source, modelled as an explicit error. -/
def findMember (name : String) : List Bnd4File → Except ReadErr (Option Bnd4File)
  | [] => .ok none
  | f :: rest =>
      match fileName f.path with
      | none => .error (.panicked "file_name")
      | some fn => if fn = name then .ok (some f) else findMember name rest

/-- `DvdBnd::read_nested_bnd`: parse the current buffer as a BND4, find
the member whose final path component equals the requested name, fail
with a member-not-found error if absent, and return that member's raw
bytes. -/
def read_nested_bnd (c : Codecs) (nested_name : String) (parent_data : List Nat) :
    Except ReadErr (List Nat) :=
  match c.bnd4Parse parent_data with
  | .error s => .error (.codec s)
  | .ok bnd =>
      match findMember nested_name bnd.files with
      | .error e => .error e
      | .ok none => .error (.memberNotFound nested_name)
      | .ok (some f) => .ok (f.memberBytes bnd.data)

/-- The loop of `read_file` over the remaining chain names: each step
replaces the buffer with the named member's bytes, the first failure
aborts. -/
def readChain (c : Codecs) : List String → List Nat → Except ReadErr (List Nat)
  | [], data => .ok data
  | n :: rest, data =>
      match read_nested_bnd c n data with
      | .error e => .error e
      | .ok d => readChain c rest d

/-- `DvdBnd::read_file`: with an empty chain, open the leaf name itself,
read it through the DCX envelope and report the envelope's
debug-formatted compression parameters; with a non-empty chain, open
and decompress the first hop, unwrap each remaining chain name and then
the leaf name as nested BND4 members, and report the fixed string
`"None"` as the compression descriptor. -/
def read_file (c : Codecs) (vfs : DvdBnd) (nested_bnd_names : List String)
    (name : String) : Except ReadErr (String × List Nat) :=
  match nested_bnd_names with
  | [] =>
      match (openE c vfs (c.nameOf name)).1 with
      | .error e => .error (.entry e)
      | .ok r =>
        match c.dcxRead r.exposed with
        | .error s => .error (.codec s)
        | .ok (descr, payload) => .ok (descr, payload)
  | first :: rest =>
      match (openE c vfs (c.nameOf first)).1 with
      | .error e => .error (.entry e)
      | .ok r =>
        match c.dcxRead r.exposed with
        | .error s => .error (.codec s)
        | .ok (_, payload) =>
          match readChain c rest payload with
          | .error e => .error e
          | .ok d =>
            match read_nested_bnd c name d with
            | .error e => .error e
            | .ok d2 => .ok ("None", d2)

/-- Join character-list components with a separator character. -/
def joinWith (sep : Char) : List (List Char) → List Char
  | [] => []
  | [c] => c
  | c :: rest => c ++ sep :: joinWith sep rest

/-- Model of `str::contains` for the extraction filter. -/
def strContains (hay needle : String) : Bool :=
  (List.range (hay.toList.length + 1)).any
    (fun i => needle.toList.isPrefixOf (hay.toList.drop i))

/-- Model of `str::ends_with`. -/
def strEndsWith (hay suffix : String) : Bool :=
  suffix.toList.isSuffixOf hay.toList

/-- Model of `Path::strip_prefix("/")`: strip the leading separator;
`none` when the path does not start with one (the source `expect`s,
panicking). -/
def stripRoot (s : String) : Option String :=
  match s.toList with
  | '/' :: rest => some (String.mk rest)
  | _ => none

/-- Model of `Path::parent` for the relative paths used here: drop the
final component; `none` only for the empty path. -/
def parentDir (s : String) : Option String :=
  if s = "" then none
  else some (String.mk (joinWith '/' (splitOnChar '/' s.toList).dropLast))

/-- Model of `Path::join` for the non-absolute arguments used here. -/
def joinP (a b : String) : String :=
  if b = "" then a
  else if a = "" then b
  else a ++ "/" ++ b

/-- Model of `Path::with_extension("")` on one file name: drop the
portion after the final dot, keeping a name with no dot, and a name
whose only dot is leading, unchanged (Rust's `file_stem` rule). -/
def dropExtName (name : List Char) : List Char :=
  let parts := splitOnChar '.' name
  if parts.length ≤ 1 then name
  else if parts.head? = some [] ∧ parts.length = 2 then name
  else joinWith '.' parts.dropLast

/-- Model of `Path::with_extension("")` on a path: drop the final
extension of its final component. -/
def withExtEmpty (s : String) : String :=
  let comps := splitOnChar '/' s.toList
  match comps.getLast? with
  | none => s
  | some last => String.mk (joinWith '/' (comps.dropLast ++ [dropExtName last]))

/-- The text after the last backslash of a BND4 member path
(`file.path[file.path.rfind('\x5c') + 1 ..]` in `extract`). -/
def afterLastBackslash (s : String) : String :=
  String.mk ((splitOnChar '\\' s.toList).getLastD s.toList)

/-- The mutable state of the output filesystem during extraction:
directories created and files written, in order. -/
structure FS where
  dirs : List String
  files : List (String × List Nat)
  deriving Repr, DecidableEq

/-- The ambient environment of one extraction run: which relative paths
exist in the process working directory (`fs::exists(parent_dir)`; an
`Err` from `fs::exists` behaves like `true`, as both fail the
`Ok(false)` pattern). -/
structure ExtractEnv where
  cwdExists : String → Bool

/-- An error of one extraction candidate: an entry-access error other
than `NotFound`, a DCX/BND4 parse error, or a panic of the source (a
dictionary line without a leading separator). -/
inductive ExtErr where
  | entry (e : DvdBndEntryError)
  | codec (s : String)
  | panicked (s : String)
  deriving Repr, DecidableEq

/-- The per-candidate body of the `try_fold` in `extract`: open the
candidate (a `NotFound` miss is skipped, leaving the total unchanged;
any other open error aborts); otherwise, for a nested-archive candidate
under `recursive`, decompress, parse the BND4 and write every member
sliced from the buffer into the archive-named directory, adding the
member count; otherwise write the raw reader bytes to the mirrored
path — but only when the candidate's parent directory does not already
exist relative to the process working directory — and add one. -/
def extractStep (c : Codecs) (env : ExtractEnv) (vfs : DvdBnd)
    (recursive : Bool) (outPath gameExt : String) (fs : FS) (total : Nat)
    (line : String) : FS × Except ExtErr Nat :=
  match (openE c vfs (c.nameOf line)).1 with
  | .error .NotFound => (fs, .ok total)
  | .error e => (fs, .error (.entry e))
  | .ok reader =>
      let is_archive := recursive && strEndsWith line "bnd.dcx"
      match stripRoot line with
      | none => (fs, .error (.panicked "no leading slash"))
      | some path =>
        let parent_path :=
          if is_archive then
            joinP (joinP outPath gameExt) (withExtEmpty (withExtEmpty path))
          else joinP outPath gameExt
        let fs1 : FS := { fs with dirs := fs.dirs ++ [parent_path] }
        if is_archive then
          match c.dcxRead reader.exposed with
          | .error s => (fs1, .error (.codec s))
          | .ok (_, buffer) =>
            match c.bnd4Parse buffer with
            | .error s => (fs1, .error (.codec s))
            | .ok bnd4 =>
              let fs2 := bnd4.files.foldl (fun acc f =>
                { acc with
                    files := acc.files ++
                      [(joinP parent_path (afterLastBackslash f.path),
                        (buffer.drop f.data_offset).take f.compressed_size)] }) fs1
              (fs2, .ok (total + bnd4.file_count))
        else
          let buffer := reader.exposed
          match parentDir path with
          | none => (fs1, .ok (total + 1))
          | some pd =>
            if env.cwdExists pd then (fs1, .ok (total + 1))
            else
              let fs2 : FS :=
                { fs1 with dirs := fs1.dirs ++ [joinP (joinP outPath gameExt) pd] }
              ({ fs2 with files := fs2.files ++ [(joinP parent_path path, buffer)] },
               .ok (total + 1))

/-- The `try_fold` over the candidates (modelled sequentially; writes
performed before a failure stay in the filesystem state). -/
def extractGo (c : Codecs) (env : ExtractEnv) (vfs : DvdBnd)
    (recursive : Bool) (outPath gameExt : String) :
    List String → FS → Nat → FS × Except ExtErr Nat
  | [], fs, total => (fs, .ok total)
  | l :: rest, fs, total =>
      match extractStep c env vfs recursive outPath gameExt fs total l with
      | (fs1, .ok t1) => extractGo c env vfs recursive outPath gameExt rest fs1 t1
      | (fs1, .error e) => (fs1, .error e)

/-- `extract`: filter the dictionary lines by the optional substring,
then fold the per-candidate step over the candidates, returning the
final filesystem state and the grand total (or first error). -/
def extract (c : Codecs) (env : ExtractEnv) (vfs : DvdBnd) (recursive : Bool)
    (filter : Option String) (outPath gameExt : String) (dict : List String) :
    FS × Except ExtErr Nat :=
  let lines := dict.filter (fun l =>
    match filter with
    | none => true
    | some f => strContains l f)
  extractGo c env vfs recursive outPath gameExt lines ⟨[], []⟩ 0

/-! ## Helper lemmas and concrete fixtures -/

/-- A concrete instantiation of the collaborator contracts, used by the
witnesses: identity cipher, an envelope whose payload is the source
bytes, no nested containers, length as the path hash. -/
def trivialCodecs : Codecs where
  aesDecrypt := fun _ d => d
  dcxRead := fun d => .ok ("DFLT", d)
  bnd4Parse := fun _ => .error "not a BND4"
  nameOf := fun s => s.toList.length

theorem collectBlocks_err (len : Nat) (ranges : List (Nat × Nat))
    (h : ∃ r ∈ ranges, r.1 ≥ len ∨ r.2 > len) :
    collectBlocks len ranges = .error .CorruptEntry := by
  induction ranges with
  | nil => simp at h
  | cons r rest ih =>
      rcases h with ⟨q, hq, hbad⟩
      rcases List.mem_cons.mp hq with rfl | hmem
      · simp [collectBlocks, hbad]
      · by_cases hr : r.1 ≥ len ∨ r.2 > len
        · simp [collectBlocks, hr]
        · simp [collectBlocks, hr, ih ⟨q, hmem, hbad⟩]

theorem createGo_error (loads : List (Except String (List Nat × Bhd)))
    (idx : Nat) (archives : List (List Nat))
    (entries : List (Nat × VfsFileEntry))
    (h : ∃ e, Except.error e ∈ loads) :
    ∃ e, createGo loads idx archives entries = .error e := by
  induction loads generalizing idx archives entries with
  | nil => simp at h
  | cons l rest ih =>
      cases l with
      | error e => exact ⟨e, rfl⟩
      | ok p =>
          rcases h with ⟨e, he⟩
          rcases List.mem_cons.mp he with h1 | h2
          · cases h1
          · obtain ⟨file, bhd⟩ := p
            exact ih _ _ _ ⟨e, h2⟩

theorem decryptAt_length (aes : List Nat → List Nat)
    (hlen : ∀ b, (aes b).length = b.length) (data : List Nat) (start n : Nat)
    (h : start + n * 16 ≤ data.length) :
    (decryptAt aes data start n).length = data.length := by
  simp [decryptAt, hlen]
  omega

theorem decryptAll_length (aes : List Nat → List Nat)
    (hlen : ∀ b, (aes b).length = b.length) (blocks : List (Nat × Nat))
    (data : List Nat) (hb : ∀ b ∈ blocks, b.1 + b.2 * 16 ≤ data.length) :
    (decryptAll aes data blocks).length = data.length := by
  induction blocks generalizing data with
  | nil => rfl
  | cons b rest ih =>
      have h1 : (decryptAt aes data b.1 b.2).length = data.length :=
        decryptAt_length aes hlen data b.1 b.2 (hb b (List.mem_cons_self b rest))
      have h2 := ih (decryptAt aes data b.1 b.2)
        (fun q hq => by rw [h1]; exact hb q (List.mem_cons_of_mem _ hq))
      simp only [decryptAll, List.foldl_cons] at h2 ⊢
      rw [h2, h1]

theorem collectBlocks_ok_of_bounds (len : Nat) (ranges : List (Nat × Nat))
    (h : ∀ r ∈ ranges, r.1 < len ∧ r.2 ≤ len) :
    ∃ blocks, collectBlocks len ranges = .ok blocks := by
  induction ranges with
  | nil => exact ⟨[], rfl⟩
  | cons r rest ih =>
      obtain ⟨h1, h2⟩ := h r (List.mem_cons_self r rest)
      obtain ⟨bs, hbs⟩ := ih (fun q hq => h q (List.mem_cons_of_mem _ hq))
      refine ⟨(r.1, ((r.2 + 2 ^ 64 - r.1) % 2 ^ 64) / 16) :: bs, ?_⟩
      have hcond : ¬(r.1 ≥ len ∨ r.2 > len) := by omega
      simp [collectBlocks, hcond, hbs]

theorem collectBlocks_ok_mem (len : Nat) (ranges blocks : List (Nat × Nat))
    (h : collectBlocks len ranges = .ok blocks) :
    ∀ b ∈ blocks, ∃ r ∈ ranges,
      b = (r.1, ((r.2 + 2 ^ 64 - r.1) % 2 ^ 64) / 16) ∧
        r.1 < len ∧ r.2 ≤ len := by
  induction ranges generalizing blocks with
  | nil =>
      simp only [collectBlocks] at h
      obtain rfl := Except.ok.inj h
      simp
  | cons r rest ih =>
      simp only [collectBlocks] at h
      by_cases hr : r.1 ≥ len ∨ r.2 > len
      · simp [hr] at h
      · simp only [hr, if_false] at h
        cases hrec : collectBlocks len rest with
        | error e => rw [hrec] at h; cases h
        | ok bs =>
            rw [hrec] at h
            obtain rfl := Except.ok.inj h
            intro b hb
            rcases List.mem_cons.mp hb with rfl | hmem
            · exact ⟨r, List.mem_cons_self r rest, rfl, by omega⟩
            · obtain ⟨q, hq, hh⟩ := ih bs hrec b hmem
              exact ⟨q, List.mem_cons_of_mem _ hq, hh⟩

theorem block_run_bound (len r1 r2 : Nat) (h12 : r1 ≤ r2) (h2 : r2 ≤ len)
    (hlen : len < 2 ^ 64) :
    r1 + (((r2 + 2 ^ 64 - r1) % 2 ^ 64) / 16) * 16 ≤ len := by
  have hmod : (r2 + 2 ^ 64 - r1) % 2 ^ 64 = r2 - r1 := by omega
  rw [hmod]
  have hdm : ((r2 - r1) / 16) * 16 ≤ r2 - r1 := Nat.div_mul_le_self _ _
  omega

/-! ## Claims -/

/-- C7: for every name whose hash is absent from the entry table,
`open()` returns exactly the `NotFound` error and performs no mapping,
read, or decryption (the effect trace is empty). -/
theorem c7_open_miss_notfound (c : Codecs) (vfs : DvdBnd) (n : Nat)
    (h : hmLookup vfs.entries n = none) :
    openE c vfs n = (.error .NotFound, []) := by
  simp [openE, h]

theorem c7_open_miss_notfound_witness :
    hmLookup (DvdBnd.mk [] []).entries 5 = none ∧
      openE trivialCodecs (DvdBnd.mk [] []) 5 = (.error .NotFound, []) :=
  ⟨rfl, c7_open_miss_notfound trivialCodecs ⟨[], []⟩ 5 rfl⟩

/-- C4: if any declared encrypted range of a found entry starts at or
beyond, or ends beyond, `file_size_with_padding`, then `open()` fails
with `CorruptEntry` and the effect trace holds only the mapping — no
range is decrypted: the bounds of all ranges are verified before any
decryption. -/
theorem c4_bounds_before_decrypt (c : Codecs) (vfs : DvdBnd) (n : Nat)
    (entry : VfsFileEntry) (hfind : hmLookup vfs.entries n = some entry)
    (hbad : ∃ r ∈ entry.aes_ranges,
      r.1 ≥ entry.file_size_with_padding ∨
        r.2 > entry.file_size_with_padding) :
    openE c vfs n =
      (.error .CorruptEntry,
       [.map entry.archive entry.file_offset entry.file_size_with_padding]) := by
  simp [openE, hfind, collectBlocks_err _ _ hbad]

/-- An entry declaring a range past its padded size, with its filesystem. -/
def entryOob : VfsFileEntry := ⟨0, 0, 16, 0, List.replicate 16 0, [(0, 32)]⟩

def vfsOob : DvdBnd := ⟨[List.replicate 16 7], [(1, entryOob)]⟩

theorem c4_bounds_before_decrypt_witness :
    hmLookup vfsOob.entries 1 = some entryOob ∧
      (∃ r ∈ entryOob.aes_ranges, r.1 ≥ 16 ∨ r.2 > 16) ∧
      openE trivialCodecs vfsOob 1 = (.error .CorruptEntry, [.map 0 0 16]) :=
  ⟨rfl, ⟨(0, 32), by decide⟩,
   c4_bounds_before_decrypt trivialCodecs vfsOob 1 entryOob rfl
     ⟨(0, 32), by decide⟩⟩

/-- C9: `create` is all-or-nothing — if loading any archive fails (its
files cannot be opened, its key cannot be obtained, or its index cannot
be decrypted), `create` returns an error and no virtual filesystem
value is produced. -/
theorem c9_create_fail_fast (loads : List (Except String (List Nat × Bhd)))
    (h : ∃ e, Except.error e ∈ loads) :
    ∃ e, create loads = .error e :=
  createGo_error loads 0 [] [] h

theorem c9_create_fail_fast_witness :
    (∃ e, Except.error e ∈
      [Except.ok (([], ⟨[]⟩) : List Nat × Bhd), Except.error "bad key"]) ∧
      ∃ e, create [Except.ok (([], ⟨[]⟩) : List Nat × Bhd),
        Except.error "bad key"] = .error e :=
  ⟨⟨"bad key", by simp⟩,
   c9_create_fail_fast _ ⟨"bad key", by simp⟩⟩

/-- A table-of-contents record declaring the reversed range `(5, 3)`. -/
def bhdEntryRev : BhdEntry := ⟨0, 0, 0, 0, [], [(5, 3)]⟩

/-- C10 counterexample: the create-time filter keeps the reversed pair
`(5, 3)` — it is neither the sentinel `(-1, -1)` nor degenerate — so a
stored encrypted range need not be non-empty: as a half-open range its
start is not below its end. -/
theorem c10_cex_reversed_range_stored :
    (convertEntry 0 bhdEntryRev).2.aes_ranges = [(5, 3)] ∧ ¬ (5 : Nat) < 3 := by
  refine ⟨?_, by decide⟩
  simp [convertEntry, bhdEntryRev, u64OfInt]

/-- C10 (amended): every encrypted-range pair equal to the sentinel
`(-1, -1)` or with start equal to end is discarded, so every stored
range has start distinct from end (though a corrupt pair with start
above end is stored, and is empty as a half-open range); an entry all
of whose declared pairs are sentinel or degenerate stores an empty
range list. -/
theorem c10_filter_degenerate_ranges (idx : Nat) (e : BhdEntry)
    (hbound : ∀ r ∈ e.encrypted_ranges,
      -(2 ^ 63) ≤ r.1 ∧ r.1 < 2 ^ 63 ∧ -(2 ^ 63) ≤ r.2 ∧ r.2 < 2 ^ 63) :
    (∀ q ∈ (convertEntry idx e).2.aes_ranges, q.1 ≠ q.2) ∧
      ((∀ r ∈ e.encrypted_ranges, r = (-1, -1) ∨ r.1 = r.2) →
        (convertEntry idx e).2.aes_ranges = []) := by
  constructor
  · intro q hq
    simp only [convertEntry, List.mem_filterMap] at hq
    rcases hq with ⟨r, hr, hconv⟩
    by_cases h1 : r.1 = -1 ∧ r.2 = -1
    · simp [h1] at hconv
    · by_cases h2 : r.1 = r.2
      · simp [h1, h2] at hconv
      · simp only [h1, h2, if_false, if_neg] at hconv
        obtain ⟨hb1, hb2, hb3, hb4⟩ := hbound r hr
        intro hqeq
        apply h2
        obtain rfl := Option.some.inj hconv
        simp [u64OfInt] at hqeq
        omega
  · intro hall
    simp only [convertEntry]
    rw [List.filterMap_eq_nil_iff]
    intro r hr
    rcases hall r hr with h1 | h2
    · simp [h1]
    · by_cases h1 : r.1 = -1 ∧ r.2 = -1
      · simp [h1]
      · simp [h1, h2]

theorem c10_filter_degenerate_ranges_witness :
    (∀ r ∈ bhdEntryRev.encrypted_ranges,
      -(2 ^ 63) ≤ r.1 ∧ r.1 < 2 ^ 63 ∧ -(2 ^ 63) ≤ r.2 ∧ r.2 < 2 ^ 63) ∧
      (∀ q ∈ (convertEntry 0 bhdEntryRev).2.aes_ranges, q.1 ≠ q.2) := by
  have hb : ∀ r ∈ bhdEntryRev.encrypted_ranges,
      -(2 ^ 63) ≤ r.1 ∧ r.1 < 2 ^ 63 ∧ -(2 ^ 63) ≤ r.2 ∧ r.2 < 2 ^ 63 := by
    intro r hr
    simp only [bhdEntryRev, List.mem_singleton] at hr
    subst hr
    refine ⟨by norm_num, by norm_num, by norm_num, by norm_num⟩
  exact ⟨hb, (c10_filter_degenerate_ranges 0 bhdEntryRev hb).1⟩

/-- C8: a successfully opened entry yields a reader exposing exactly
`effective_size` bytes — `file_size` when nonzero, else
`file_size_with_padding` — even though the underlying mapping spans
`file_size_with_padding` bytes. -/
theorem c8_effective_size (c : Codecs) (vfs : DvdBnd) (n : Nat)
    (entry : VfsFileEntry) (hfind : hmLookup vfs.entries n = some entry)
    (hranges : ∀ r ∈ entry.aes_ranges,
      r.1 ≤ r.2 ∧ r.1 < entry.file_size_with_padding ∧
        r.2 ≤ entry.file_size_with_padding)
    (hlen64 : entry.file_size_with_padding < 2 ^ 64)
    (hsize : entry.file_size ≤ entry.file_size_with_padding)
    (harch : entry.file_offset + entry.file_size_with_padding ≤
      (vfs.archives.getD entry.archive []).length)
    (haes : ∀ k b, (c.aesDecrypt k b).length = b.length) :
    ∃ r, (openE c vfs n).1 = .ok r ∧
      r.data.length = entry.file_size_with_padding ∧
      r.exposed.length =
        (if entry.file_size ≠ 0 then entry.file_size
         else entry.file_size_with_padding) := by
  obtain ⟨blocks, hok⟩ := collectBlocks_ok_of_bounds
    entry.file_size_with_padding entry.aes_ranges
    (fun r hr => ⟨(hranges r hr).2.1, (hranges r hr).2.2⟩)
  have hmaplen :
      (((vfs.archives.getD entry.archive []).drop entry.file_offset).take
        entry.file_size_with_padding).length = entry.file_size_with_padding := by
    simp only [List.length_take, List.length_drop]
    omega
  have hdec :
      (decryptAll (c.aesDecrypt entry.aes_key)
        (((vfs.archives.getD entry.archive []).drop entry.file_offset).take
          entry.file_size_with_padding) blocks).length =
        entry.file_size_with_padding := by
    rw [decryptAll_length (c.aesDecrypt entry.aes_key) (haes entry.aes_key)
      blocks _ ?_, hmaplen]
    intro b hb
    obtain ⟨r, hr, rfl, h1, h2⟩ :=
      collectBlocks_ok_mem entry.file_size_with_padding entry.aes_ranges
        blocks hok b hb
    rw [hmaplen]
    exact block_run_bound entry.file_size_with_padding r.1 r.2
      (hranges r hr).1 h2 hlen64
  refine ⟨⟨decryptAll (c.aesDecrypt entry.aes_key)
      (((vfs.archives.getD entry.archive []).drop entry.file_offset).take
        entry.file_size_with_padding) blocks,
      if entry.file_size ≠ 0 then entry.file_size
      else entry.file_size_with_padding⟩, ?_, hdec, ?_⟩
  · simp only [openE, hfind, hok]
  · simp only [DvdBndEntryReader.exposed, List.length_take, hdec]
    split <;> omega

/-- An entry of `file_size` 3 inside padded size 4 at offset 1 of a
five-byte archive, and one of `file_size` 0. -/
def entryEff : VfsFileEntry := ⟨0, 3, 4, 1, List.replicate 16 0, []⟩

def vfsEff : DvdBnd := ⟨[[10, 11, 12, 13, 14]], [(9, entryEff)]⟩

theorem c8_effective_size_witness :
    hmLookup vfsEff.entries 9 = some entryEff ∧
      (∀ k b, (trivialCodecs.aesDecrypt k b).length = b.length) ∧
      ∃ r, (openE trivialCodecs vfsEff 9).1 = .ok r ∧
        r.data.length = 4 ∧ r.exposed.length = 3 := by
  refine ⟨rfl, fun k b => rfl, ?_⟩
  have h := c8_effective_size trivialCodecs vfsEff 9 entryEff rfl
    (by intro r hr; cases hr) (by decide) (by decide)
    (by simp [vfsEff, entryEff]) (fun k b => rfl)
  simpa [entryEff] using h

theorem findMember_eq_find (name : String) (files : List Bnd4File)
    (h : ∀ f ∈ files, (fileName f.path).isSome) :
    findMember name files =
      .ok (files.find? (fun g => decide (fileName g.path = some name))) := by
  induction files with
  | nil => rfl
  | cons f rest ih =>
      obtain ⟨fn, hfn⟩ :=
        Option.isSome_iff_exists.mp (h f (List.mem_cons_self f rest))
      have hrest := ih (fun g hg => h g (List.mem_cons_of_mem _ hg))
      by_cases he : fn = name
      · subst he
        simp [findMember, hfn]
      · have hne : fileName f.path ≠ some name := by
          rw [hfn]; intro hc; exact he (Option.some.inj hc)
        simp [findMember, hfn, he, hne, hrest]

/-- C6: each nested-container step parses the current buffer as a BND4
and selects the member whose final path component equals the requested
name (string equality, directory components ignored): when no member's
final path component equals the name the step fails with a
member-not-found error, and otherwise the buffer is replaced by the
matching member's raw bytes. -/
theorem c6_nested_member_selection (c : Codecs) (data : List Nat)
    (name : String) (bnd : BND4) (hparse : c.bnd4Parse data = .ok bnd)
    (hnames : ∀ f ∈ bnd.files, (fileName f.path).isSome) :
    ((∀ f ∈ bnd.files, fileName f.path ≠ some name) →
      read_nested_bnd c name data = .error (.memberNotFound name)) ∧
    (∀ f, bnd.files.find? (fun g => decide (fileName g.path = some name)) =
        some f →
      read_nested_bnd c name data = .ok (f.memberBytes bnd.data)) := by
  have hfm := findMember_eq_find name bnd.files hnames
  constructor
  · intro hnone
    have hfind : bnd.files.find?
        (fun g => decide (fileName g.path = some name)) = none := by
      rw [List.find?_eq_none]
      intro f hf
      simpa using hnone f hf
    simp [read_nested_bnd, hparse, hfm, hfind]
  · intro f hf
    simp [read_nested_bnd, hparse, hfm, hf]

/-- A two-member BND4 whose member paths carry directory components. -/
def bndTwo (d : List Nat) : BND4 :=
  ⟨[⟨"dir/alpha.tae", 1, 2⟩, ⟨"dir/beta.tae", 3, 1⟩], 2, d⟩

def c6Codecs : Codecs :=
  { trivialCodecs with bnd4Parse := fun d => .ok (bndTwo d) }

theorem c6_nested_member_selection_witness :
    c6Codecs.bnd4Parse [0, 1, 2, 3, 4] = .ok (bndTwo [0, 1, 2, 3, 4]) ∧
      (∀ f ∈ (bndTwo [0, 1, 2, 3, 4]).files, (fileName f.path).isSome) ∧
      read_nested_bnd c6Codecs "beta.tae" [0, 1, 2, 3, 4] = .ok [3] := by
  refine ⟨rfl, by decide, ?_⟩
  have h := (c6_nested_member_selection c6Codecs [0, 1, 2, 3, 4] "beta.tae"
    (bndTwo [0, 1, 2, 3, 4]) rfl (by decide)).2
    ⟨"dir/beta.tae", 3, 1⟩ (by decide)
  simpa using h

/-- The codecs and filesystem of the C2 counterexample: a one-entry
table whose payload parses as a DCX envelope with descriptor `"ZSTD"`
holding a one-member BND4. -/
def c2Codecs : Codecs where
  aesDecrypt := fun _ d => d
  dcxRead := fun d => .ok ("ZSTD", d)
  bnd4Parse := fun d => .ok ⟨[⟨"b", 0, 1⟩], 1, d⟩
  nameOf := fun _ => 0

def vfsC2 : DvdBnd := ⟨[[7]], [(0, ⟨0, 1, 1, 0, List.replicate 16 0, []⟩)]⟩

/-- C2 counterexample: a successful `read_file` through a one-hop
container chain returns the fixed string `"None"`, not the first hop's
envelope descriptor `"ZSTD"` — the descriptor is discarded whenever the
chain is non-empty. -/
theorem c2_cex_descriptor_discarded :
    read_file c2Codecs vfsC2 ["a"] "b" = .ok ("None", [7]) ∧
      c2Codecs.dcxRead [7] = .ok ("ZSTD", [7]) ∧ ("None" : String) ≠ "ZSTD" :=
  ⟨rfl, rfl, by decide⟩

/-- C2 (amended): a successful `read_file` with an empty container
chain returns the buffer with the compression descriptor of the
entry's own envelope; with a non-empty chain the first hop's descriptor
is discarded and the fixed string `"None"` is returned instead. -/
theorem c2_amended_descriptor (c : Codecs) (vfs : DvdBnd)
    (chain : List String) (name : String) (d : String) (b : List Nat)
    (hok : read_file c vfs chain name = .ok (d, b)) :
    (chain = [] → ∃ r, (openE c vfs (c.nameOf name)).1 = .ok r ∧
      c.dcxRead r.exposed = .ok (d, b)) ∧
    (chain ≠ [] → d = "None") := by
  cases chain with
  | nil =>
      refine ⟨fun _ => ?_, fun h => absurd rfl h⟩
      simp only [read_file] at hok
      cases ho : (openE c vfs (c.nameOf name)).1 with
      | error e => simp only [ho] at hok; simp at hok
      | ok r =>
          simp only [ho] at hok
          cases hd : c.dcxRead r.exposed with
          | error s => simp only [hd] at hok; simp at hok
          | ok p =>
              obtain ⟨d2, b2⟩ := p
              simp only [hd] at hok
              refine ⟨r, rfl, ?_⟩
              rw [hd, Except.ok.inj hok]
  | cons first rest =>
      refine ⟨fun h => absurd h (by simp), fun _ => ?_⟩
      simp only [read_file] at hok
      cases ho : (openE c vfs (c.nameOf first)).1 with
      | error e => simp only [ho] at hok; simp at hok
      | ok r =>
          simp only [ho] at hok
          cases hd : c.dcxRead r.exposed with
          | error s => simp only [hd] at hok; simp at hok
          | ok p =>
              obtain ⟨d0, payload⟩ := p
              simp only [hd] at hok
              cases hc : readChain c rest payload with
              | error e => simp only [hc] at hok; simp at hok
              | ok dd =>
                  simp only [hc] at hok
                  cases hn : read_nested_bnd c name dd with
                  | error e => simp only [hn] at hok; simp at hok
                  | ok d2 =>
                      simp only [hn] at hok
                      exact (congrArg Prod.fst (Except.ok.inj hok)).symm

theorem c2_amended_descriptor_witness :
    read_file c2Codecs vfsC2 ["a"] "b" = .ok ("None", [7]) ∧
      ((["a"] : List String) ≠ [] → ("None" : String) = "None") :=
  ⟨rfl, (c2_amended_descriptor c2Codecs vfsC2 ["a"] "b" "None" [7] rfl).2⟩

/-- A hash occurs in a table of contents. -/
def containsHash (toc : List BhdEntry) (h : Nat) : Prop :=
  ∃ e ∈ toc, e.hash = h

/-- The last record of a table of contents carrying a given hash — the
one whose binding survives the `HashMap::extend` of that archive. -/
def lastWithHash (toc : List BhdEntry) (h : Nat) : Option BhdEntry :=
  toc.reverse.find? (fun e => decide (e.hash = h))

/-- The entry table produced by processing a list of successfully
loaded archives, starting from archive index `idx` and entry table `m`. -/
def buildEntries : Nat → List (List Nat × Bhd) → List (Nat × VfsFileEntry) →
    List (Nat × VfsFileEntry)
  | _, [], m => m
  | idx, l :: rest, m =>
      buildEntries (idx + 1) rest (hmExtend m (l.2.toc.map (convertEntry idx)))

theorem find_filter_ne (m : List (Nat × VfsFileEntry)) (k q : Nat)
    (h : q ≠ k) :
    (m.filter (fun p => decide (p.1 ≠ k))).find? (fun p => decide (p.1 = q)) =
      m.find? (fun p => decide (p.1 = q)) := by
  induction m with
  | nil => rfl
  | cons p rest ih =>
      rw [List.filter_cons]
      by_cases hk2 : p.1 = k
      · have hcond : decide (p.1 ≠ k) = false := by simp [hk2]
        rw [hcond, if_neg (by simp)]
        rw [List.find?_cons]
        have hpq : ¬ p.1 = q := by omega
        rw [decide_eq_false hpq]
        exact ih
      · have hcond : decide (p.1 ≠ k) = true := by simpa using hk2
        rw [hcond, if_pos rfl]
        rw [List.find?_cons, List.find?_cons]
        cases hq : decide (p.1 = q) with
        | true => rfl
        | false => exact ih

theorem hmLookup_insert (m : List (Nat × VfsFileEntry)) (k : Nat)
    (v : VfsFileEntry) (q : Nat) :
    hmLookup (hmInsert m k v) q = if q = k then some v else hmLookup m q := by
  by_cases h : q = k
  · rw [if_pos h]
    have hd : decide (((k, v) : Nat × VfsFileEntry).1 = q) = true := by simp [h]
    unfold hmLookup hmInsert
    rw [List.find?_cons, hd]
    rfl
  · rw [if_neg h]
    unfold hmLookup hmInsert
    have hd : decide (((k, v) : Nat × VfsFileEntry).1 = q) = false := by
      simp
      omega
    rw [List.find?_cons, hd]
    exact congrArg (Option.map Prod.snd) (find_filter_ne m k q h)

theorem hmLookup_extend (new m : List (Nat × VfsFileEntry)) (q : Nat) :
    hmLookup (hmExtend m new) q =
      match new.reverse.find? (fun p => decide (p.1 = q)) with
      | some p => some p.2
      | none => hmLookup m q := by
  induction new generalizing m with
  | nil => rfl
  | cons p rest ih =>
      have hstep : hmExtend m (p :: rest) = hmExtend (hmInsert m p.1 p.2) rest := rfl
      rw [hstep, ih]
      rw [List.reverse_cons, List.find?_append]
      cases hfind : rest.reverse.find? (fun u => decide (u.1 = q)) with
      | some u => simp [hfind]
      | none =>
          simp only [hfind, Option.none_or]
          rw [hmLookup_insert]
          by_cases hq : q = p.1
          · simp [List.find?_cons, hq]
          · have : ¬ p.1 = q := by omega
            simp [List.find?_cons, hq, this]

theorem buildEntries_no_hash (h : Nat) (loads : List (List Nat × Bhd)) :
    ∀ (idx : Nat) (m : List (Nat × VfsFileEntry)),
    (∀ l ∈ loads, ¬ containsHash l.2.toc h) →
    hmLookup (buildEntries idx loads m) h = hmLookup m h := by
  induction loads with
  | nil => intro idx m _; rfl
  | cons l rest ih =>
      intro idx m hnone
      have hrest := ih (idx + 1) (hmExtend m (l.2.toc.map (convertEntry idx)))
        (fun q hq => hnone q (List.mem_cons_of_mem _ hq))
      rw [buildEntries, hrest, hmLookup_extend]
      have hfind : (l.2.toc.map (convertEntry idx)).reverse.find?
          (fun p => decide (p.1 = h)) = none := by
        rw [List.find?_eq_none]
        intro p hp
        simp only [List.mem_reverse, List.mem_map] at hp
        obtain ⟨e, he, rfl⟩ := hp
        have : e.hash ≠ h := fun hc =>
          hnone l (List.mem_cons_self l rest) ⟨e, he, hc⟩
        simpa [convertEntry] using this
      rw [hfind]

theorem lastWithHash_isSome (toc : List BhdEntry) (h : Nat)
    (hmem : containsHash toc h) :
    ∃ e, lastWithHash toc h = some e ∧ e.hash = h := by
  obtain ⟨e0, he0, hh0⟩ := hmem
  have hsome : (toc.reverse.find? (fun e => decide (e.hash = h))).isSome := by
    rw [List.find?_isSome]
    exact ⟨e0, List.mem_reverse.mpr he0, by simpa using hh0⟩
  obtain ⟨e, he⟩ := Option.isSome_iff_exists.mp hsome
  exact ⟨e, he, by simpa using List.find?_some he⟩

theorem buildEntries_last (h : Nat) (loads : List (List Nat × Bhd)) :
    ∀ (j idx : Nat) (m : List (Nat × VfsFileEntry)) (hj : j < loads.length),
    containsHash (loads.get ⟨j, hj⟩).2.toc h →
    (∀ k, (hk : k < loads.length) → j < k →
      ¬ containsHash (loads.get ⟨k, hk⟩).2.toc h) →
    ∃ e, lastWithHash (loads.get ⟨j, hj⟩).2.toc h = some e ∧
      hmLookup (buildEntries idx loads m) h = some (convertEntry (idx + j) e).2 := by
  induction loads with
  | nil =>
      intro j idx m hj
      exact absurd hj (by simp)
  | cons l rest ih =>
      intro j idx m hj hmem hafter
      cases j with
      | zero =>
          obtain ⟨e, he, hh⟩ := lastWithHash_isSome l.2.toc h hmem
          refine ⟨e, he, ?_⟩
          have hnone : ∀ q ∈ rest, ¬ containsHash q.2.toc h := by
            intro q hq
            obtain ⟨k, hk, rfl⟩ := List.mem_iff_get.mp hq
            have hk1 : (k : Nat) + 1 < (l :: rest).length :=
              Nat.succ_lt_succ k.isLt
            have := hafter ((k : Nat) + 1) hk1 (Nat.succ_pos _)
            simpa [List.get_cons_succ] using this
          rw [buildEntries, buildEntries_no_hash h rest (idx + 1) _ hnone,
            hmLookup_extend]
          have hfm : (l.2.toc.map (convertEntry idx)).reverse.find?
              (fun p => decide (p.1 = h)) = some (convertEntry idx e) := by
            rw [← List.map_reverse, List.find?_map]
            have hpred : ((fun p : Nat × VfsFileEntry => decide (p.1 = h)) ∘
                convertEntry idx) = (fun e : BhdEntry => decide (e.hash = h)) := by
              funext q
              simp [convertEntry]
            rw [hpred]
            have := he
            rw [lastWithHash] at this
            rw [this]
            rfl
          rw [hfm]
          simp
      | succ j0 =>
          have hj0 : j0 < rest.length := by
            simp only [List.length_cons] at hj
            omega
          have hmem0 : containsHash (rest.get ⟨j0, hj0⟩).2.toc h := by
            simpa [List.get_cons_succ] using hmem
          have hafter0 : ∀ k, (hk : k < rest.length) → j0 < k →
              ¬ containsHash (rest.get ⟨k, hk⟩).2.toc h := by
            intro k hk hjk
            have hk1 : k + 1 < (l :: rest).length := by simpa using Nat.succ_lt_succ hk
            have := hafter (k + 1) hk1 (Nat.succ_lt_succ hjk)
            simpa [List.get_cons_succ] using this
          obtain ⟨e, he, hlook⟩ := ih j0 (idx + 1)
            (hmExtend m (l.2.toc.map (convertEntry idx))) hj0 hmem0 hafter0
          refine ⟨e, by simpa [List.get_cons_succ] using he, ?_⟩
          rw [buildEntries, hlook]
          have harith : idx + 1 + j0 = idx + (j0 + 1) := by omega
          rw [harith]

theorem createGo_ok (loads : List (List Nat × Bhd)) :
    ∀ (idx : Nat) (archives : List (List Nat))
      (entries : List (Nat × VfsFileEntry)),
    createGo (loads.map Except.ok) idx archives entries =
      .ok ⟨archives ++ loads.map Prod.fst, buildEntries idx loads entries⟩ := by
  induction loads with
  | nil => intro idx archives entries; simp [createGo, buildEntries]
  | cons l rest ih =>
      intro idx archives entries
      obtain ⟨file, bhd⟩ := l
      simp only [List.map_cons, createGo, buildEntries, ih]
      simp

/-- C3: when the same hash occurs in the tables of contents of several
archives given to `create`, the construction succeeds (the collision is
not an error), the entry table maps the hash to the record of the
archive loaded last (last-write-wins, also within one archive's own
table of contents), and a subsequent `open()` of the hash maps the data
region of that later archive. -/
theorem c3_last_write_wins (c : Codecs) (loads : List (List Nat × Bhd))
    (h j : Nat) (hj : j < loads.length)
    (hmem : containsHash (loads.get ⟨j, hj⟩).2.toc h)
    (hafter : ∀ k, (hk : k < loads.length) → j < k →
      ¬ containsHash (loads.get ⟨k, hk⟩).2.toc h) :
    ∃ vfs e, create (loads.map Except.ok) = .ok vfs ∧
      vfs.archives = loads.map Prod.fst ∧
      lastWithHash (loads.get ⟨j, hj⟩).2.toc h = some e ∧
      hmLookup vfs.entries h = some (convertEntry j e).2 ∧
      (convertEntry j e).2.archive = j ∧
      (openE c vfs h).2.head? = some (.map j e.offset e.padded_size) := by
  obtain ⟨e, he, hlook⟩ := buildEntries_last h loads j 0 [] hj hmem hafter
  rw [Nat.zero_add] at hlook
  refine ⟨⟨loads.map Prod.fst, buildEntries 0 loads []⟩, e,
    by simpa using createGo_ok loads 0 [] [], rfl, he, hlook, rfl, ?_⟩
  simp only [openE, hlook]
  cases hcb : collectBlocks (convertEntry j e).2.file_size_with_padding
      (convertEntry j e).2.aes_ranges with
  | error err => simp [hcb, convertEntry]
  | ok blocks => simp [hcb, convertEntry]

/-- Two single-entry archives sharing hash 42 with distinguishable
payloads. -/
def tocClash (key : List Nat) : List BhdEntry := [⟨42, 1, 1, 0, key, []⟩]

theorem c3_last_write_wins_witness :
    (containsHash (([([2], ⟨tocClash []⟩)] :
        List (List Nat × Bhd)).get ⟨0, by decide⟩).2.toc 42 →
      True) ∧
    ∃ vfs e,
      create ([([1], ⟨tocClash []⟩), ([2], ⟨tocClash []⟩)].map Except.ok) =
        .ok vfs ∧
      vfs.archives = [[1], [2]] ∧
      lastWithHash (tocClash []) 42 = some e ∧
      hmLookup vfs.entries 42 = some (convertEntry 1 e).2 ∧
      (convertEntry 1 e).2.archive = 1 ∧
      (openE trivialCodecs vfs 42).2.head? = some (.map 1 0 1) := by
  refine ⟨fun _ => trivial, ?_⟩
  have h := c3_last_write_wins trivialCodecs
    [([1], ⟨tocClash []⟩), ([2], ⟨tocClash []⟩)] 42 1 (by decide)
    ⟨⟨42, 1, 1, 0, [], []⟩, by decide, rfl⟩
    (fun k hk hjk => by
      simp only [List.length_cons, List.length_nil] at hk
      omega)
  obtain ⟨vfs, e, h1, h2, h3, h4, h5, h6⟩ := h
  exact ⟨vfs, e, h1, h2, h3, h4, h5, by
    have hh : e.offset = 0 ∧ e.padded_size = 1 := by
      have := h3
      simp [lastWithHash, tocClash, List.find?_cons] at this
      subst this
      exact ⟨rfl, rfl⟩
    rw [hh.1, hh.2] at h6
    exact h6⟩

/-- The per-task count of one candidate: the second component of the
per-candidate step, taken from a zero total (the step's count and error
do not depend on the filesystem state or the running total). -/
def stepCount (c : Codecs) (env : ExtractEnv) (vfs : DvdBnd) (recursive : Bool)
    (outPath gameExt : String) (line : String) : Except ExtErr Nat :=
  (extractStep c env vfs recursive outPath gameExt ⟨[], []⟩ 0 line).2

/-- The defaulted per-task count (zero for a failing candidate). -/
def stepCountD (c : Codecs) (env : ExtractEnv) (vfs : DvdBnd) (recursive : Bool)
    (outPath gameExt : String) (line : String) : Nat :=
  match stepCount c env vfs recursive outPath gameExt line with
  | .ok d => d
  | .error _ => 0

theorem extractStep_snd (c : Codecs) (env : ExtractEnv) (vfs : DvdBnd)
    (recursive : Bool) (outPath gameExt : String) (fs : FS) (total : Nat)
    (line : String) :
    (extractStep c env vfs recursive outPath gameExt fs total line).2 =
      match stepCount c env vfs recursive outPath gameExt line with
      | .ok d => .ok (total + d)
      | .error e => .error e := by
  unfold stepCount extractStep
  cases ho : (openE c vfs (c.nameOf line)).1 with
  | error e => cases e <;> rfl
  | ok reader =>
      simp only []
      cases hs : stripRoot line with
      | none => rfl
      | some path =>
          simp only []
          cases ha : recursive && strEndsWith line "bnd.dcx" with
          | false =>
              simp only [Bool.false_eq_true, if_false]
              cases hp : parentDir path with
              | none => rfl
              | some pd =>
                  simp only []
                  cases he : env.cwdExists pd with
                  | false => simp
                  | true => simp
          | true =>
              simp only [if_true]
              cases hd : c.dcxRead reader.exposed with
              | error s => rfl
              | ok p =>
                  obtain ⟨descr, buffer⟩ := p
                  simp only []
                  cases hb : c.bnd4Parse buffer with
                  | error s => rfl
                  | ok bnd4 => simp

theorem foldl_files_extends (buffer : List Nat) (parent_path : String)
    (bfiles : List Bnd4File) (acc : FS) :
    acc.files <+: (bfiles.foldl (fun acc f =>
      { acc with
          files := acc.files ++
            [(joinP parent_path (afterLastBackslash f.path),
              (buffer.drop f.data_offset).take f.compressed_size)] }) acc).files := by
  induction bfiles generalizing acc with
  | nil => exact List.prefix_refl _
  | cons f rest ih =>
      refine List.IsPrefix.trans ?_ (ih _)
      exact List.prefix_append _ _

theorem extractStep_files_mono (c : Codecs) (env : ExtractEnv) (vfs : DvdBnd)
    (recursive : Bool) (outPath gameExt : String) (fs : FS) (total : Nat)
    (line : String) :
    fs.files <+:
      (extractStep c env vfs recursive outPath gameExt fs total line).1.files := by
  unfold extractStep
  cases ho : (openE c vfs (c.nameOf line)).1 with
  | error e => cases e <;> exact List.prefix_refl _
  | ok reader =>
      simp only []
      cases hs : stripRoot line with
      | none => exact List.prefix_refl _
      | some path =>
          simp only []
          cases ha : recursive && strEndsWith line "bnd.dcx" with
          | false =>
              simp only [Bool.false_eq_true, if_false]
              cases hp : parentDir path with
              | none => exact List.prefix_refl _
              | some pd =>
                  simp only []
                  cases he : env.cwdExists pd with
                  | false => exact List.prefix_append _ _
                  | true => exact List.prefix_refl _
          | true =>
              simp only [if_true]
              cases hd : c.dcxRead reader.exposed with
              | error s => exact List.prefix_refl _
              | ok p =>
                  obtain ⟨descr, buffer⟩ := p
                  simp only []
                  cases hb : c.bnd4Parse buffer with
                  | error s => exact List.prefix_refl _
                  | ok bnd4 =>
                      simp only []
                      exact foldl_files_extends buffer
                        (joinP (joinP outPath gameExt)
                          (withExtEmpty (withExtEmpty path))) bnd4.files
                        ⟨fs.dirs ++ [joinP (joinP outPath gameExt)
                          (withExtEmpty (withExtEmpty path))], fs.files⟩

theorem extractGo_append (c : Codecs) (env : ExtractEnv) (vfs : DvdBnd)
    (recursive : Bool) (outPath gameExt : String) (xs ys : List String) :
    ∀ (fs : FS) (total : Nat),
    extractGo c env vfs recursive outPath gameExt (xs ++ ys) fs total =
      match extractGo c env vfs recursive outPath gameExt xs fs total with
      | (fs1, .ok t1) => extractGo c env vfs recursive outPath gameExt ys fs1 t1
      | (fs1, .error e) => (fs1, .error e) := by
  induction xs with
  | nil => intro fs total; rfl
  | cons x rest ih =>
      intro fs total
      simp only [List.cons_append, extractGo]
      cases hstep : extractStep c env vfs recursive outPath gameExt fs total x with
      | mk fs1 r =>
          cases r with
          | ok t1 => simp only []; exact ih fs1 t1
          | error e => rfl

theorem extractGo_ok_sum (c : Codecs) (env : ExtractEnv) (vfs : DvdBnd)
    (recursive : Bool) (outPath gameExt : String) (lines : List String)
    (h : ∀ l ∈ lines, ∃ d,
      stepCount c env vfs recursive outPath gameExt l = .ok d) :
    ∀ (fs : FS) (total : Nat), ∃ fs1,
    extractGo c env vfs recursive outPath gameExt lines fs total =
      (fs1, .ok (total +
        (lines.map (stepCountD c env vfs recursive outPath gameExt)).sum)) := by
  induction lines with
  | nil => intro fs total; exact ⟨fs, by simp [extractGo]⟩
  | cons l rest ih =>
      intro fs total
      obtain ⟨d, hd⟩ := h l (List.mem_cons_self l rest)
      have hstep := extractStep_snd c env vfs recursive outPath gameExt fs total l
      rw [hd] at hstep
      obtain ⟨fs2, hrest⟩ := ih (fun q hq => h q (List.mem_cons_of_mem _ hq))
        (extractStep c env vfs recursive outPath gameExt fs total l).1 (total + d)
      refine ⟨fs2, ?_⟩
      rw [extractGo]
      cases hsp : extractStep c env vfs recursive outPath gameExt fs total l with
      | mk fs1 r =>
          rw [hsp] at hstep hrest
          simp only [] at hstep
          subst hstep
          simp only []
          rw [hrest]
          have hcd : stepCountD c env vfs recursive outPath gameExt l = d := by
            unfold stepCountD
            rw [hd]
          simp [hcd, Nat.add_assoc]

/-- C5: during bulk extraction, (a) a candidate whose `open()` fails
with `NotFound` is skipped silently — the step leaves the filesystem
and the running total unchanged and returns no error; (b) a candidate
failing with any other error makes the whole extraction return that
error, with the files already written left in place; (c) when every
candidate succeeds, the result is the sum of the per-task counts. -/
theorem c5_extract_error_handling (c : Codecs) (env : ExtractEnv)
    (vfs : DvdBnd) (recursive : Bool) (outPath gameExt : String) :
    (∀ (fs : FS) (total : Nat) (line : String),
      (openE c vfs (c.nameOf line)).1 = .error .NotFound →
      extractStep c env vfs recursive outPath gameExt fs total line =
        (fs, .ok total)) ∧
    (∀ (pre : List String) (line : String) (rest : List String)
      (fs1 : FS) (t1 : Nat) (e : ExtErr),
      extractGo c env vfs recursive outPath gameExt pre ⟨[], []⟩ 0 =
        (fs1, .ok t1) →
      stepCount c env vfs recursive outPath gameExt line = .error e →
      ∃ fs2, extractGo c env vfs recursive outPath gameExt
          (pre ++ line :: rest) ⟨[], []⟩ 0 = (fs2, .error e) ∧
        fs1.files <+: fs2.files) ∧
    (∀ lines : List String,
      (∀ l ∈ lines, ∃ d,
        stepCount c env vfs recursive outPath gameExt l = .ok d) →
      ∃ fs1, extractGo c env vfs recursive outPath gameExt lines ⟨[], []⟩ 0 =
        (fs1, .ok ((lines.map
          (stepCountD c env vfs recursive outPath gameExt)).sum))) := by
  refine ⟨?_, ?_, ?_⟩
  · intro fs total line ho
    unfold extractStep
    rw [ho]
  · intro pre line rest fs1 t1 e hpre hline
    rw [extractGo_append, hpre]
    simp only [extractGo]
    have hstep := extractStep_snd c env vfs recursive outPath gameExt fs1 t1 line
    rw [hline] at hstep
    cases hsp : extractStep c env vfs recursive outPath gameExt fs1 t1 line with
    | mk fs2 r =>
        rw [hsp] at hstep
        simp only [] at hstep
        subst hstep
        refine ⟨fs2, rfl, ?_⟩
        have := extractStep_files_mono c env vfs recursive outPath gameExt
          fs1 t1 line
        rw [hsp] at this
        exact this
  · intro lines hok
    obtain ⟨fs1, h1⟩ := extractGo_ok_sum c env vfs recursive outPath gameExt
      lines hok ⟨[], []⟩ 0
    rw [Nat.zero_add] at h1
    exact ⟨fs1, h1⟩

/-- Collaborators hashing a path to its character count, with a
two-entry table: hash 2 (`"/m"`) resolves to a plain entry, hash 3
(`"/nf"`) is absent, hash 4 (`"/bad"`) resolves to the entry with an
out-of-bounds encrypted range. -/
def c5Codecs : Codecs :=
  { trivialCodecs with nameOf := fun s => s.toList.length }

def entryPlain : VfsFileEntry := ⟨0, 1, 1, 0, List.replicate 16 0, []⟩

def vfsC5 : DvdBnd := ⟨[[5]], [(2, entryPlain), (4, entryOob)]⟩

def envFalse : ExtractEnv := ⟨fun _ => false⟩

theorem c5_extract_error_handling_witness :
    ((openE c5Codecs vfsC5 (c5Codecs.nameOf "/nf")).1 = .error .NotFound ∧
      extractStep c5Codecs envFalse vfsC5 false "out" "er-pc" ⟨[], []⟩ 0 "/nf" =
        (⟨[], []⟩, .ok 0)) ∧
    (stepCount c5Codecs envFalse vfsC5 false "out" "er-pc" "/bad" =
        .error (.entry .CorruptEntry) ∧
      ∃ fs2, extractGo c5Codecs envFalse vfsC5 false "out" "er-pc"
          (["/m"] ++ "/bad" :: []) ⟨[], []⟩ 0 =
          (fs2, .error (.entry .CorruptEntry)) ∧
        (FS.mk ["out/er-pc", "out/er-pc"]
          [("out/er-pc/m", [5])]).files <+: fs2.files) ∧
    (∃ fs1, extractGo c5Codecs envFalse vfsC5 false "out" "er-pc"
        ["/m", "/nf"] ⟨[], []⟩ 0 =
        (fs1, .ok ((["/m", "/nf"].map
          (stepCountD c5Codecs envFalse vfsC5 false "out" "er-pc")).sum))) := by
  obtain ⟨ha, hb, hc⟩ :=
    c5_extract_error_handling c5Codecs envFalse vfsC5 false "out" "er-pc"
  refine ⟨⟨rfl, ha ⟨[], []⟩ 0 "/nf" rfl⟩,
    ⟨rfl, hb ["/m"] "/bad" []
      ⟨["out/er-pc", "out/er-pc"], [("out/er-pc/m", [5])]⟩ 1
      (.entry .CorruptEntry) rfl rfl⟩,
    hc ["/m", "/nf"] ?_⟩
  intro l hl
  simp only [List.mem_cons, List.mem_singleton] at hl
  rcases hl with rfl | rfl | hl
  · exact ⟨1, rfl⟩
  · exact ⟨0, rfl⟩
  · cases hl

/-- The environment of the C1 failing input: the process working
directory contains a subdirectory named `map`. -/
def envCwdMap : ExtractEnv := ⟨fun s => s == "map"⟩

/-- A table resolving the hash of `"/map/m60.msb"` (12 characters) to a
plain three-byte entry. -/
def vfsC1 : DvdBnd :=
  ⟨[[1, 2, 3]], [(12, ⟨0, 3, 3, 0, List.replicate 16 0, []⟩)]⟩

/-- C1 (code-bug evaluation at the failing input): extracting the
one-line dictionary `"/map/m60.msb"` — resolvable, non-recursive, no
filter — in a working directory that contains a subdirectory `map`
writes no file at all, because the write is guarded by
`fs::exists(parent_dir)` against the process working directory rather
than the output tree, yet the reported total is still 1: the returned
count does not equal the number of files written. -/
theorem c1_skipped_write_still_counted :
    extract c5Codecs envCwdMap vfsC1 false none "out" "er-pc"
      ["/map/m60.msb"] = (⟨["out/er-pc"], []⟩, .ok 1) := by
  rfl

end FsTools
